import Mathlib

/-!
Verification of the SketchRNN/InkRNN data-loading utilities
(`magenta/models/sketch_rnn/utils.py`).

Sketches are sequences of stroke-3 points `(dx, dy, pen_lift)`; the loader
converts them to padded stroke-5 points `(dx, dy, p_down, p_up, p_end)`,
filters and sorts the corpus, augments it, and builds stroke-wise padded
mini-batch runs consumed through a FIFO queue.

Numeric values are modelled over `ℚ` (the Python code works on numpy float
arrays; none of the verified properties depend on rounding).  Randomness
(`np.random.*`) is modelled by passing the drawn values explicitly.
Python exceptions (IndexError, failed `assert`, `max` of an empty list,
`Queue.get` on an empty queue) are modelled with `Option`: `none` is an
abnormal termination of the call.
-/

/-- A stroke-3 point: x-offset, y-offset and pen-lift flag (kept as a
rational because the code stores it in the same float array and clamps it
together with the offsets). -/
structure Pt where
  dx : ℚ
  dy : ℚ
  pen : ℚ
deriving DecidableEq, Repr

/-- A stroke-5 point: x-offset, y-offset, and the three pen-state channels
`p_down`, `p_up`, `p_end`. -/
structure P5 where
  dx : ℚ
  dy : ℚ
  pd : ℚ
  pu : ℚ
  pe : ℚ
deriving DecidableEq, Repr

/-- The fixed start token `S_0 = [0, 0, 1, 0, 0]`
(`DataLoader.start_stroke_token`). -/
def startTok : P5 := ⟨0, 0, 1, 0, 0⟩

/-- The end-of-sketch one-hot `[0, 0, 0, 0, 1]`. -/
def endP5 : P5 := ⟨0, 0, 0, 0, 1⟩

/-- Stroke-5 image of a stroke-3 point as written by
`result[.., 0:2] = xy; result[.., 3] = pen; result[.., 2] = 1 - pen`
(the end channel stays at its zero initialisation). -/
def toP5 (p : Pt) : P5 := ⟨p.dx, p.dy, 1 - p.pen, p.pen, 0⟩

/-- Padding point used by `pad_stroke_batch`: end-of-sketch one-hot for the
sketch's final pen-stroke, end-of-stroke one-hot `[0,0,0,1,0]` otherwise. -/
def padP5 (isLast : Bool) : P5 := if isLast then ⟨0, 0, 0, 0, 1⟩ else ⟨0, 0, 0, 1, 0⟩

/-- `to_big_strokes(stroke, max_len)` (utils.py:179-190): stroke-3 to
stroke-5, padded with end-of-sketch rows to `max_len`; the `assert l <= max_len`
is modelled by returning `none`. -/
def to_big_strokes (stroke : List Pt) (max_len : ℕ) : Option (List P5) :=
  if stroke.length ≤ max_len then
    some (stroke.map toP5 ++ List.replicate (max_len - stroke.length) endP5)
  else none

/-- The scan of the loop in `to_normal_strokes` (utils.py:143-147): walk the
points with a running index `i`, stopping at the first point whose
end-of-sketch channel is positive; `l` stays `0` when no such point exists. -/
def firstEndIdx : List P5 → ℕ → ℕ
  | [], _ => 0
  | q :: rest, i => if 0 < q.pe then i else firstEndIdx rest (i + 1)

/-- The index `l` computed by `to_normal_strokes` (utils.py:143-149): the
first index whose end-of-sketch channel is positive (`0` when there is
none), replaced by the full length when it is `0`. -/
def normalCut (big : List P5) : ℕ :=
  let l := firstEndIdx big 0
  if l = 0 then big.length else l

/-- `to_normal_strokes(big_stroke)` (utils.py:141-153): truncate at
`normalCut` and project back to stroke-3 (`result[:,2] = big[0:l,3]`). -/
def to_normal_strokes (big : List P5) : List Pt :=
  (big.take (normalCut big)).map (fun q => ⟨q.dx, q.dy, q.pu⟩)

example : to_big_strokes [⟨1, 2, 1⟩] 2 =
    some [⟨1, 2, 0, 1, 0⟩, ⟨0, 0, 0, 0, 1⟩] := by with_unfolding_all decide

example : to_normal_strokes [⟨1, 2, 0, 1, 0⟩, ⟨0, 0, 0, 0, 1⟩] = [⟨1, 2, 1⟩] := by
  with_unfolding_all decide

example : to_normal_strokes [⟨0, 0, 0, 0, 1⟩] = [⟨0, 0, 0⟩] := by with_unfolding_all decide

/-! ## Round trip stroke-3 → stroke-5 → stroke-3 (claim about
`to_big_strokes` / `to_normal_strokes`) -/

lemma firstEndIdx_big (s : List Pt) (n i : ℕ) :
    firstEndIdx (s.map toP5 ++ List.replicate n endP5) i =
      if n = 0 then 0 else i + s.length := by
  induction s generalizing i with
  | nil =>
    cases n with
    | zero => simp [firstEndIdx]
    | succ m => simp [firstEndIdx, List.replicate_succ, endP5]
  | cons a t ih =>
    have hpe : ¬ (0 < (toP5 a).pe) := by simp [toP5]
    simp only [List.map_cons, List.cons_append, firstEndIdx, if_neg hpe,
      List.append_eq]
    rw [ih]
    by_cases hn : n = 0
    · simp [hn]
    · simp only [hn, if_false, List.length_cons]
      omega

lemma normalCut_big (s : List Pt) (max_len : ℕ) (hne : s ≠ []) :
    normalCut (s.map toP5 ++ List.replicate (max_len - s.length) endP5) =
      s.length := by
  have hs : s.length ≠ 0 := by
    intro h
    exact hne (List.length_eq_zero.mp h)
  unfold normalCut
  rw [firstEndIdx_big]
  by_cases h : max_len - s.length = 0
  · simp [h, List.length_append, List.length_map, List.length_replicate]
  · simp [h, hs]

/-- C5 counterexample: for the empty stroke-3 sequence (length `0 ≤ max_len`),
`to_big_strokes` produces a pure end-of-sketch pad, and `to_normal_strokes`
maps it to a single all-zero point — not back to the empty sequence.  So the
round trip is not lossless for every sequence of length at most `max_len`. -/
theorem roundtrip_fails_on_empty :
    (to_big_strokes ([] : List Pt) 1).map to_normal_strokes =
        some [⟨0, 0, 0⟩] ∧
      ([⟨0, 0, 0⟩] : List Pt) ≠ [] := by
  with_unfolding_all decide

/-- C5 (amended): for every nonempty stroke-3 sequence `s` with length at
most `max_len`, `to_normal_strokes (to_big_strokes s max_len)` returns `s`
(and the `assert` in `to_big_strokes` passes). -/
theorem to_big_to_normal_roundtrip (s : List Pt) (max_len : ℕ)
    (hne : s ≠ []) (hlen : s.length ≤ max_len) :
    ∃ big, to_big_strokes s max_len = some big ∧ to_normal_strokes big = s := by
  refine ⟨s.map toP5 ++ List.replicate (max_len - s.length) endP5, ?_, ?_⟩
  · simp [to_big_strokes, hlen]
  · unfold to_normal_strokes
    rw [normalCut_big s max_len hne]
    have hlm : s.length = (s.map toP5).length := (List.length_map _ _).symm
    rw [hlm, List.take_left, List.map_map]
    have hfun : ∀ p : Pt,
        ((fun q : P5 => (⟨q.dx, q.dy, q.pu⟩ : Pt)) ∘ toP5) p = p := by
      intro p; rfl
    rw [List.map_congr_left (fun p _ => hfun p)]
    exact List.map_id' s

/-- Witness for the amended C5 round trip at a concrete one-point sequence. -/
theorem to_big_to_normal_roundtrip_witness :
    ∃ big, to_big_strokes [(⟨1, 2, 1⟩ : Pt)] 2 = some big ∧
      to_normal_strokes big = [⟨1, 2, 1⟩] :=
  to_big_to_normal_roundtrip [⟨1, 2, 1⟩] 2 (by with_unfolding_all decide)
    (by with_unfolding_all decide)

/-! ## Sketch segmentation (split_sketch, get_max_stroke_len) -/

/-- Maximum of a list of naturals, as Python's `max` on a list of
non-negative values (call sites guarantee the list is nonempty). -/
def listMax (l : List ℕ) : ℕ := l.foldr max 0

lemma le_listMax {l : List ℕ} {a : ℕ} (h : a ∈ l) : a ≤ listMax l := by
  induction l with
  | nil => cases h
  | cons b t ih =>
    rcases List.mem_cons.mp h with rfl | hm
    · exact le_max_left _ _
    · exact le_trans (ih hm) (le_max_right _ _)

/-- The split boundaries of `split_sketch` (utils.py:210):
`np.where(data[:, 2] == 1)[0] + 1`, the successor of every index whose
pen-lift flag equals 1. -/
def penBounds (data : List Pt) : List ℕ :=
  data.enum.filterMap (fun ip => if ip.2.pen = 1 then some (ip.1 + 1) else none)

/-- `np.split(data, idxs)` for ascending indices: pieces
`data[0:i1], data[i1:i2], …, data[im:]` (slices clamp like Python's). -/
def npSplitGo (data : List Pt) : ℕ → List ℕ → List (List Pt)
  | prev, [] => [data.drop prev]
  | prev, b :: rest => ((data.drop prev).take (b - prev)) :: npSplitGo data b rest

/-- `split_sketch(data)` (utils.py:208-212): split the sketch right after
every pen-lift point, the last boundary being dropped
(`pen_stroke_bounds[:-1]`). -/
def split_sketch (data : List Pt) : List (List Pt) :=
  npSplitGo data 0 (penBounds data).dropLast

/-- `get_max_stroke_len(sketch)` (utils.py:203-205): maximum pen-stroke
length of one sketch. -/
def get_max_stroke_len (sketch : List Pt) : ℕ :=
  listMax ((split_sketch sketch).map List.length)

example : split_sketch [⟨1, 0, 0⟩, ⟨2, 0, 1⟩, ⟨3, 0, 1⟩, ⟨4, 0, 0⟩] =
    [[⟨1, 0, 0⟩, ⟨2, 0, 1⟩], [⟨3, 0, 1⟩, ⟨4, 0, 0⟩]] := by
  with_unfolding_all decide

example : get_max_stroke_len [⟨1, 0, 1⟩, ⟨2, 0, 0⟩, ⟨3, 0, 1⟩] = 2 := by
  with_unfolding_all decide

lemma npSplitGo_ne_nil (data : List Pt) (prev : ℕ) (bs : List ℕ) :
    npSplitGo data prev bs ≠ [] := by
  cases bs <;> simp [npSplitGo]

lemma split_sketch_ne_nil (data : List Pt) : split_sketch data ≠ [] :=
  npSplitGo_ne_nil _ _ _

lemma mem_of_mem_npSplitGo {data : List Pt} {prev : ℕ} {bs : List ℕ}
    {seg : List Pt} (hseg : seg ∈ npSplitGo data prev bs) {p : Pt}
    (hp : p ∈ seg) : p ∈ data := by
  induction bs generalizing prev with
  | nil =>
    simp only [npSplitGo, List.mem_singleton] at hseg
    exact List.drop_subset _ _ (hseg ▸ hp)
  | cons b rest ih =>
    rcases List.mem_cons.mp hseg with rfl | hm
    · exact List.drop_subset _ _ (List.take_subset _ _ hp)
    · exact ih hm

lemma mem_of_mem_split_sketch {data : List Pt} {seg : List Pt}
    (hseg : seg ∈ split_sketch data) {p : Pt} (hp : p ∈ seg) : p ∈ data :=
  mem_of_mem_npSplitGo hseg hp

lemma seg_len_le_max_stroke_len {data : List Pt} {seg : List Pt}
    (hseg : seg ∈ split_sketch data) :
    seg.length ≤ get_max_stroke_len data :=
  le_listMax (List.mem_map_of_mem List.length hseg)

/-! ## DataLoader.preprocess (filter, clamp, scale, argsort) -/

/-- The elementwise clamp of `preprocess` (utils.py:255-256):
`np.minimum(sketch, limit)` then `np.maximum(sketch, -limit)` — applied to
all three columns of the array, the pen-lift column included. -/
def clampPt (limit : ℚ) (p : Pt) : Pt :=
  ⟨max (min p.dx limit) (-limit), max (min p.dy limit) (-limit),
    max (min p.pen limit) (-limit)⟩

/-- Per-sketch transformation of `preprocess` (utils.py:255-258): clamp all
three columns, then divide the two offset columns by `scale_factor`. -/
def preprocSketch (limit scale : ℚ) (s : List Pt) : List Pt :=
  s.map (fun p =>
    let q := clampPt limit p
    ⟨q.dx / scale, q.dy / scale, q.pen⟩)

/-- `raw_data` of `preprocess` (utils.py:250-260): keep the sketches whose
maximum pen-stroke length is at most `max_seq_length` and transform each. -/
def preprocess_raw (maxSeq : ℕ) (limit scale : ℚ)
    (sketches : List (List Pt)) : List (List Pt) :=
  (sketches.filter (fun s => decide (get_max_stroke_len s ≤ maxSeq))).map
    (preprocSketch limit scale)

/-- Reordering of `raw_data` by the index array `idx` (utils.py:262-265):
`self.strokes = [raw_data[idx[i]] for i in range(...)]`. -/
def applyPerm (σ : List ℕ) (l : List (List Pt)) : List (List Pt) :=
  σ.map (fun i => l.getD i [])

/-- Contract of `np.argsort(seq_len)` (utils.py:262) for the default
`kind='quicksort'` (introsort): the result is SOME permutation of
`0 .. n-1` that puts the keys in ascending order.  The tie order among
equal keys is implementation-defined (the default sort is not stable), so
the model quantifies over every valid result. -/
def validArgsort (keys : List ℕ) (σ : List ℕ) : Prop :=
  σ.Perm (List.range keys.length) ∧
    (σ.map (fun i => keys.getD i 0)).Sorted (· ≤ ·)

instance (keys σ : List ℕ) : Decidable (validArgsort keys σ) := by
  unfold validArgsort
  infer_instance

/-- `DataLoader.preprocess` (utils.py:240-267) with the permutation chosen
by `np.argsort` passed explicitly: filter, clamp, scale, then reorder by
the index array. -/
def preprocessWith (maxSeq : ℕ) (limit scale : ℚ) (σ : List ℕ)
    (sketches : List (List Pt)) : List (List Pt) :=
  applyPerm σ (preprocess_raw maxSeq limit scale sketches)

lemma map_getD_range (l : List (List Pt)) :
    (List.range l.length).map (fun i => l.getD i []) = l := by
  induction l with
  | nil => simp
  | cons a t ih =>
    rw [List.length_cons, List.range_succ_eq_map, List.map_cons]
    simp only [List.getD_cons_zero, List.map_map]
    have hcomp : ((fun i => (a :: t).getD i []) ∘ Nat.succ) =
        (fun i => t.getD i []) := by
      funext i
      rfl
    rw [hcomp, ih]

lemma applyPerm_perm {σ : List ℕ} {l : List (List Pt)}
    (h : σ.Perm (List.range l.length)) : (applyPerm σ l).Perm l := by
  have := h.map (fun i => l.getD i [])
  rw [map_getD_range] at this
  exact this

lemma getD_length (l : List (List Pt)) (i : ℕ) :
    (l.getD i []).length = (l.map List.length).getD i 0 := by
  rw [List.getD_eq_getElem?_getD, List.getD_eq_getElem?_getD,
    List.getElem?_map]
  cases h : l[i]? with
  | none => simp
  | some s => simp

/-- C6 (amended): after `preprocess` (for any permutation `np.argsort` may
return, i.e. any `validArgsort` realization), the stored corpus is a
permutation of the transformed survivors — exactly the input sketches whose
maximum PEN-STROKE length is at most `max_seq_length` — and it is sorted
ascending by total point count.  The relative order of sketches with equal
total point count is NOT guaranteed (the default `np.argsort` quicksort is
not stable); see `preprocess_tie_order_not_preserved`. -/
theorem preprocess_filters_and_sorts (maxSeq : ℕ) (limit scale : ℚ)
    (σ : List ℕ) (sketches : List (List Pt))
    (hσ : validArgsort ((preprocess_raw maxSeq limit scale sketches).map
      List.length) σ) :
    (preprocessWith maxSeq limit scale σ sketches).Perm
        ((sketches.filter
            (fun s => decide (get_max_stroke_len s ≤ maxSeq))).map
          (preprocSketch limit scale)) ∧
      ((preprocessWith maxSeq limit scale σ sketches).map
          List.length).Sorted (· ≤ ·) ∧
      ∀ s' ∈ preprocessWith maxSeq limit scale σ sketches,
        ∃ s ∈ sketches, get_max_stroke_len s ≤ maxSeq ∧
          s' = preprocSketch limit scale s := by
  obtain ⟨hp, hsorted⟩ := hσ
  rw [List.length_map] at hp
  have hperm : (preprocessWith maxSeq limit scale σ sketches).Perm
      (preprocess_raw maxSeq limit scale sketches) := applyPerm_perm hp
  refine ⟨hperm, ?_, ?_⟩
  · have hmap : (preprocessWith maxSeq limit scale σ sketches).map
        List.length = σ.map
          (fun i => ((preprocess_raw maxSeq limit scale sketches).map
            List.length).getD i 0) := by
      unfold preprocessWith applyPerm
      rw [List.map_map]
      exact List.map_congr_left (fun i _ => getD_length _ i)
    rw [hmap]
    exact hsorted
  · intro s' hs'
    have hmem : s' ∈ preprocess_raw maxSeq limit scale sketches :=
      hperm.mem_iff.mp hs'
    unfold preprocess_raw at hmem
    obtain ⟨s, hsf, rfl⟩ := List.mem_map.mp hmem
    obtain ⟨hsin, hcond⟩ := List.mem_filter.mp hsf
    exact ⟨s, hsin, of_decide_eq_true hcond, rfl⟩

/-- Witness for `preprocess_filters_and_sorts`: a two-sketch corpus where
one sketch is discarded (its single pen-stroke has 2 points > 1) and the
other is kept. -/
theorem preprocess_filters_and_sorts_witness :
    (preprocessWith 1 1000 1 [0] [[⟨1, 2, 1⟩], [⟨3, 4, 0⟩, ⟨5, 6, 1⟩]]).Perm
        (([[⟨1, 2, 1⟩], [⟨3, 4, 0⟩, ⟨5, 6, 1⟩]].filter
            (fun s => decide (get_max_stroke_len s ≤ 1))).map
          (preprocSketch 1000 1)) ∧
      ((preprocessWith 1 1000 1 [0]
          [[⟨1, 2, 1⟩], [⟨3, 4, 0⟩, ⟨5, 6, 1⟩]]).map
          List.length).Sorted (· ≤ ·) ∧
      ∀ s' ∈ preprocessWith 1 1000 1 [0] [[⟨1, 2, 1⟩], [⟨3, 4, 0⟩, ⟨5, 6, 1⟩]],
        ∃ s ∈ [[⟨1, 2, 1⟩], [⟨3, 4, 0⟩, ⟨5, 6, 1⟩]],
          get_max_stroke_len s ≤ 1 ∧ s' = preprocSketch 1000 1 s :=
  preprocess_filters_and_sorts 1 1000 1 [0] _ (by with_unfolding_all decide)

/-- C6 counterexample (tie order): two distinct one-point sketches of equal
total point count.  `[1, 0]` is a valid result of the unstable
`np.argsort` on the equal keys `[1, 1]`, and under it `preprocess` stores
the two sketches in the reverse of their input order, so the stable tie
order asserted by the claim is not guaranteed by the code. -/
theorem preprocess_tie_order_not_preserved :
    validArgsort ((preprocess_raw 5 1000 1
        [[⟨1, 0, 1⟩], [⟨2, 0, 1⟩]]).map List.length) [1, 0] ∧
      preprocessWith 5 1000 1 [1, 0] [[⟨1, 0, 1⟩], [⟨2, 0, 1⟩]] =
        [[⟨2, 0, 1⟩], [⟨1, 0, 1⟩]] ∧
      ([[⟨2, 0, 1⟩], [⟨1, 0, 1⟩]] : List (List Pt)) ≠
        [[⟨1, 0, 1⟩], [⟨2, 0, 1⟩]] := by
  with_unfolding_all decide

/-- C10: `preprocess` clamps all three columns, the pen-lift column
included.  For every retained sketch (any `validArgsort` realization `σ`):
with `limit ≥ 1` the pen column is unchanged, while with `0 < limit < 1`
(the configuration requires `limit > 0`) every pen-lift value `1` is
replaced by `limit`, destroying the pen-stroke boundary markers. -/
theorem preprocess_clamps_pen_column (maxSeq : ℕ) (limit scale : ℚ)
    (σ : List ℕ) (sketches : List (List Pt))
    (hσ : validArgsort ((preprocess_raw maxSeq limit scale sketches).map
      List.length) σ)
    (hpens : ∀ s ∈ sketches, ∀ p ∈ s, p.pen = 0 ∨ p.pen = 1) :
    ∀ s' ∈ preprocessWith maxSeq limit scale σ sketches,
      ∃ s ∈ sketches, s' = preprocSketch limit scale s ∧
        (1 ≤ limit → s'.map Pt.pen = s.map Pt.pen) ∧
        (0 < limit → limit < 1 →
          s'.map Pt.pen =
            s.map (fun p => if p.pen = 1 then limit else p.pen)) := by
  intro s' hs'
  obtain ⟨-, -, hmem⟩ :=
    preprocess_filters_and_sorts maxSeq limit scale σ sketches hσ
  obtain ⟨s, hsin, -, rfl⟩ := hmem s' hs'
  refine ⟨s, hsin, rfl, ?_, ?_⟩
  · intro hlim
    unfold preprocSketch clampPt
    rw [List.map_map]
    refine List.map_congr_left (fun p hp => ?_)
    rcases hpens s hsin p hp with h0 | h1
    · show max (min p.pen limit) (-limit) = p.pen
      rw [h0, min_eq_left (by linarith), max_eq_left (by linarith)]
    · show max (min p.pen limit) (-limit) = p.pen
      rw [h1, min_eq_left hlim, max_eq_left (by linarith)]
  · intro hpos hlt
    unfold preprocSketch clampPt
    rw [List.map_map]
    refine List.map_congr_left (fun p hp => ?_)
    rcases hpens s hsin p hp with h0 | h1
    · show max (min p.pen limit) (-limit) = if p.pen = 1 then limit else p.pen
      rw [h0, min_eq_left (by linarith), max_eq_left (by linarith)]
      norm_num
    · show max (min p.pen limit) (-limit) = if p.pen = 1 then limit else p.pen
      rw [h1, min_eq_right (by linarith), max_eq_left (by linarith)]
      norm_num

/-- Witness for `preprocess_clamps_pen_column`: with `limit = 1/2` the kept
sketch's pen-lift `1` becomes `1/2`; instantiated at the concrete stored
sketch `[(1/2, 0, 1/2)]`. -/
theorem preprocess_clamps_pen_column_witness :
    ∃ s ∈ [[(⟨1, 0, 1⟩ : Pt)]],
      [(⟨1/2, 0, 1/2⟩ : Pt)] = preprocSketch (1/2) 1 s ∧
        ((1 : ℚ) ≤ 1/2 →
          ([(⟨1/2, 0, 1/2⟩ : Pt)]).map Pt.pen = s.map Pt.pen) ∧
        ((0 : ℚ) < 1/2 → (1/2 : ℚ) < 1 →
          ([(⟨1/2, 0, 1/2⟩ : Pt)]).map Pt.pen =
            s.map (fun p => if p.pen = 1 then (1/2 : ℚ) else p.pen)) :=
  preprocess_clamps_pen_column 5 (1/2) 1 [0] [[⟨1, 0, 1⟩]]
    (by with_unfolding_all decide) (by with_unfolding_all decide)
    [⟨1/2, 0, 1/2⟩] (by with_unfolding_all decide)

/-! ## pad_stroke_batch (stroke-wise mini-batch construction) -/

/-- Sequencing of fallible per-element computations: Python loops whose body
can raise (IndexError, failed assert) abort the whole call. -/
def optMap {α β : Type _} (f : α → Option β) : List α → Option (List β)
  | [] => some []
  | a :: l =>
    match f a with
    | none => none
    | some b =>
      match optMap f l with
      | none => none
      | some bs => some (b :: bs)

lemma optMap_eq_map {α β : Type _} {f : α → Option β} {g : α → β}
    (l : List α) (h : ∀ a ∈ l, f a = some (g a)) :
    optMap f l = some (l.map g) := by
  induction l with
  | nil => rfl
  | cons a t ih =>
    unfold optMap
    rw [h a (List.mem_cons_self a t),
      ih (fun b hb => h b (List.mem_cons_of_mem a hb))]
    rfl

/-- The pre-shift row that `pad_stroke_batch` writes for a row owning a
`j`-th pen-stroke `s` (utils.py:373-382): stroke-5 data at positions
`0..l-1`, then the end-of-sketch or end-of-stroke one-hot up to index
`max_seq_length` (the array has `max_seq_length + 1` timesteps). -/
def strokeRowUnshifted (maxSeq : ℕ) (s : List Pt) (isLast : Bool) : List P5 :=
  s.map toP5 ++ List.replicate (maxSeq + 1 - s.length) (padP5 isLast)

/-- One row of mini-batch `j` (utils.py:362-395).  A row with no `j`-th
pen-stroke is left as the end-of-sketch one-hot with recorded length `0`;
a row with a `j`-th pen-stroke of length `l ≤ max_seq_length` is built,
shifted right by one timestep (`result[i,1:,:] = result[i,:-1,:]`), its
position 0 replaced by the start token, with recorded length `l + 1`
(`all_strokes_policy` is the constant `True`).  A pen-stroke longer than
`max_seq_length` fails the `assert` (modelled as `none`). -/
def padRow (maxSeq : ℕ) (sl : List (List Pt)) (j : ℕ) : Option (List P5 × ℕ) :=
  if sl.length ≤ j then some (List.replicate (maxSeq + 1) endP5, 0)
  else
    let s := sl.getD j []
    if s.length ≤ maxSeq then
      some (startTok ::
          (strokeRowUnshifted maxSeq s (decide (sl.length ≤ j + 1))).dropLast,
        s.length + 1)
    else none

/-- Mini-batch `j` of `pad_stroke_batch`: one row per `i in range(batch_size)`,
indexing `sketch_strokes[i]` (IndexError — `none` — when the cohort has
fewer than `batch_size` sketches).  The `(None, result, seq_len)` triple is
modelled as the pair `(result, seq_len)`. -/
def buildBatch (bs maxSeq : ℕ) (ss : List (List (List Pt))) (j : ℕ) :
    Option (List (List P5) × List ℕ) :=
  match optMap (fun i =>
      match ss[i]? with
      | none => none
      | some sl => padRow maxSeq sl j) (List.range bs) with
  | none => none
  | some rows => some (rows.map Prod.fst, rows.map Prod.snd)

/-- `pad_stroke_batch(sketch_strokes)` (utils.py:345-398): `k` mini-batches,
`k` the maximum pen-stroke count over the cohort (`max(...)` raises on an
empty cohort). -/
def pad_stroke_batch (bs maxSeq : ℕ) (ss : List (List (List Pt))) :
    Option (List (List (List P5) × List ℕ)) :=
  match ss with
  | [] => none
  | _ :: _ =>
    optMap (buildBatch bs maxSeq ss) (List.range (listMax (ss.map List.length)))

/-- Total description of the row of mini-batch `j` for a cohort member with
pen-stroke list `sl` (valid when every pen-stroke fits in `max_seq_length`). -/
def rowOf (maxSeq : ℕ) (sl : List (List Pt)) (j : ℕ) : List P5 :=
  if sl.length ≤ j then List.replicate (maxSeq + 1) endP5
  else startTok ::
    (strokeRowUnshifted maxSeq (sl.getD j [])
      (decide (sl.length ≤ j + 1))).dropLast

/-- Total description of the recorded length of mini-batch `j`'s row for a
cohort member with pen-stroke list `sl`. -/
def lenOf (sl : List (List Pt)) (j : ℕ) : ℕ :=
  if sl.length ≤ j then 0 else (sl.getD j []).length + 1

lemma padRow_eq_some (maxSeq : ℕ) (sl : List (List Pt)) (j : ℕ)
    (h : ∀ seg ∈ sl, seg.length ≤ maxSeq) :
    padRow maxSeq sl j = some (rowOf maxSeq sl j, lenOf sl j) := by
  unfold padRow rowOf lenOf
  by_cases hj : sl.length ≤ j
  · simp [hj]
  · have hjlt : j < sl.length := Nat.lt_of_not_le hj
    have hget : sl.getD j [] = sl[j] := by
      rw [List.getD_eq_getElem?_getD, List.getElem?_eq_getElem hjlt]
      rfl
    have hmem : sl.getD j [] ∈ sl := by
      rw [hget]
      exact List.getElem_mem hjlt
    have hseg := h _ hmem
    simp only [if_neg hj]
    rw [if_pos hseg]

lemma pad_stroke_batch_some (bs maxSeq : ℕ) (ss : List (List (List Pt)))
    (hbs : ss.length = bs) (hne : ss ≠ [])
    (hlen : ∀ sl ∈ ss, ∀ seg ∈ sl, seg.length ≤ maxSeq) :
    pad_stroke_batch bs maxSeq ss =
      some ((List.range (listMax (ss.map List.length))).map (fun j =>
        ((List.range bs).map (fun i => rowOf maxSeq (ss.getD i []) j),
          (List.range bs).map (fun i => lenOf (ss.getD i []) j)))) := by
  obtain ⟨s₀, t, rfl⟩ := List.exists_cons_of_ne_nil hne
  show optMap _ _ = _
  refine optMap_eq_map _ (fun j _ => ?_)
  unfold buildBatch
  have hrows : optMap (fun i =>
      match (s₀ :: t)[i]? with
      | none => none
      | some sl => padRow maxSeq sl j) (List.range bs) =
      some ((List.range bs).map (fun i =>
        (rowOf maxSeq ((s₀ :: t).getD i []) j,
          lenOf ((s₀ :: t).getD i []) j))) := by
    refine optMap_eq_map _ (fun i hi => ?_)
    have hilt : i < (s₀ :: t).length := hbs ▸ List.mem_range.mp hi
    have hgd : (s₀ :: t).getD i [] = (s₀ :: t)[i] := by
      rw [List.getD_eq_getElem?_getD, List.getElem?_eq_getElem hilt]
      rfl
    have hget : (s₀ :: t)[i]? = some ((s₀ :: t).getD i []) := by
      rw [List.getElem?_eq_getElem hilt, hgd]
    rw [hget]
    refine padRow_eq_some maxSeq _ j (hlen _ ?_)
    rw [hgd]
    exact List.getElem_mem hilt
  rw [hrows]
  simp [List.map_map]

/-- C3 scenario: cohort of sketch A (3 pen-strokes) and sketch B
(1 pen-stroke), `batch_size = 2`, `max_seq_length = 2`.  `pad_stroke_batch`
produces exactly 3 mini-batches; mini-batch 0 carries real data for both
rows; in mini-batches 1 and 2 row B is entirely the end-of-sketch one-hot
with recorded length 0; after row A's stroke data the padding carries the
end-of-stroke one-hot in mini-batches 0 and 1 and the end-of-sketch
one-hot in mini-batch 2. -/
theorem pad_stroke_batch_scenario :
    pad_stroke_batch 2 2
        [split_sketch [⟨1, 2, 1⟩, ⟨3, 4, 1⟩, ⟨5, 6, 1⟩],
          split_sketch [⟨7, 8, 1⟩]] =
      some
        [([[⟨0, 0, 1, 0, 0⟩, ⟨1, 2, 0, 1, 0⟩, ⟨0, 0, 0, 1, 0⟩],
            [⟨0, 0, 1, 0, 0⟩, ⟨7, 8, 0, 1, 0⟩, ⟨0, 0, 0, 0, 1⟩]], [2, 2]),
          ([[⟨0, 0, 1, 0, 0⟩, ⟨3, 4, 0, 1, 0⟩, ⟨0, 0, 0, 1, 0⟩],
            [⟨0, 0, 0, 0, 1⟩, ⟨0, 0, 0, 0, 1⟩, ⟨0, 0, 0, 0, 1⟩]], [2, 0]),
          ([[⟨0, 0, 1, 0, 0⟩, ⟨5, 6, 0, 1, 0⟩, ⟨0, 0, 0, 0, 1⟩],
            [⟨0, 0, 0, 0, 1⟩, ⟨0, 0, 0, 0, 1⟩, ⟨0, 0, 0, 0, 1⟩]], [2, 0])] := by
  with_unfolding_all decide

lemma getD_map_range {β : Type _} (k j : ℕ) (f : ℕ → β) (d : β)
    (hj : j < k) : (((List.range k).map f).getD j d) = f j := by
  rw [List.getD_eq_getElem?_getD, List.getElem?_map, List.getElem?_range hj]
  rfl

/-- C2 counterexample: cohort where sketch B has 1 pen-stroke and sketch A
has 2, `batch_size = 2`, `max_seq_length = 1`.  In mini-batch 1 the row for
B (no 1st-indexed pen-stroke) is left as the end-of-sketch one-hot with
recorded length 0: its position 0 is `[0,0,0,0,1]`, not the start token,
and its length was not incremented — the shift/start-token/length step is
NOT applied to rows without a `j`-th pen-stroke (it sits inside the `else`
branch, utils.py:368-395). -/
theorem pad_stroke_batch_no_shift_for_absent_rows :
    pad_stroke_batch 2 1
        [split_sketch [⟨1, 2, 1⟩, ⟨3, 4, 1⟩], split_sketch [⟨5, 6, 1⟩]] =
      some
        [([[⟨0, 0, 1, 0, 0⟩, ⟨1, 2, 0, 1, 0⟩],
            [⟨0, 0, 1, 0, 0⟩, ⟨5, 6, 0, 1, 0⟩]], [2, 2]),
          ([[⟨0, 0, 1, 0, 0⟩, ⟨3, 4, 0, 1, 0⟩],
            [⟨0, 0, 0, 0, 1⟩, ⟨0, 0, 0, 0, 1⟩]], [2, 0])] ∧
      (⟨0, 0, 0, 0, 1⟩ : P5) ≠ startTok := by
  with_unfolding_all decide

/-- C2 (amended): in `pad_stroke_batch`, for every mini-batch `j` and every
row `i` that HAS a `j`-th pen-stroke (every such `j`, not only `j = 0`,
since `all_strokes_policy` is constantly true), the row is the one-step
right shift of the written row — start token at position 0, the last
written timestep discarded — and its recorded length is the pen-stroke
length plus 1.  Rows with no `j`-th pen-stroke are NOT shifted: they stay
the all-end-of-sketch row with recorded length 0. -/
theorem pad_stroke_batch_row_shift (bs maxSeq : ℕ)
    (ss : List (List (List Pt))) (hbs : ss.length = bs) (hne : ss ≠ [])
    (hlen : ∀ sl ∈ ss, ∀ seg ∈ sl, seg.length ≤ maxSeq) :
    ∃ run, pad_stroke_batch bs maxSeq ss = some run ∧
      run.length = listMax (ss.map List.length) ∧
      ∀ j, j < run.length → ∀ i, i < bs →
        ((run.getD j ([], [])).1.getD i [] =
            (if (ss.getD i []).length ≤ j then
              List.replicate (maxSeq + 1) endP5
            else
              startTok ::
                (strokeRowUnshifted maxSeq ((ss.getD i []).getD j [])
                  (decide ((ss.getD i []).length ≤ j + 1))).dropLast)) ∧
          ((run.getD j ([], [])).2.getD i 0 =
            (if (ss.getD i []).length ≤ j then 0
            else ((ss.getD i []).getD j []).length + 1)) := by
  refine ⟨_, pad_stroke_batch_some bs maxSeq ss hbs hne hlen, by
    rw [List.length_map, List.length_range], ?_⟩
  intro j hj i hi
  rw [List.length_map, List.length_range] at hj
  rw [getD_map_range _ _ _ _ hj]
  constructor
  · rw [getD_map_range _ _ _ _ hi]
    rfl
  · rw [getD_map_range _ _ _ _ hi]
    rfl

/-- Witness for `pad_stroke_batch_row_shift` on the two-sketch cohort of
the counterexample. -/
theorem pad_stroke_batch_row_shift_witness :
    ∃ run, pad_stroke_batch 2 1
        [split_sketch [⟨1, 2, 1⟩, ⟨3, 4, 1⟩], split_sketch [⟨5, 6, 1⟩]] =
      some run ∧
      run.length = listMax
        (([split_sketch [⟨1, 2, 1⟩, ⟨3, 4, 1⟩],
          split_sketch [⟨5, 6, 1⟩]]).map List.length) ∧
      ∀ j, j < run.length → ∀ i, i < 2 →
        ((run.getD j ([], [])).1.getD i [] =
            (if (([split_sketch [⟨1, 2, 1⟩, ⟨3, 4, 1⟩],
                split_sketch [⟨5, 6, 1⟩]]).getD i []).length ≤ j then
              List.replicate 2 endP5
            else
              startTok ::
                (strokeRowUnshifted 1
                  ((([split_sketch [⟨1, 2, 1⟩, ⟨3, 4, 1⟩],
                    split_sketch [⟨5, 6, 1⟩]]).getD i []).getD j [])
                  (decide ((([split_sketch [⟨1, 2, 1⟩, ⟨3, 4, 1⟩],
                    split_sketch [⟨5, 6, 1⟩]]).getD i []).length ≤
                      j + 1))).dropLast)) ∧
          ((run.getD j ([], [])).2.getD i 0 =
            (if (([split_sketch [⟨1, 2, 1⟩, ⟨3, 4, 1⟩],
                split_sketch [⟨5, 6, 1⟩]]).getD i []).length ≤ j then 0
            else ((([split_sketch [⟨1, 2, 1⟩, ⟨3, 4, 1⟩],
              split_sketch [⟨5, 6, 1⟩]]).getD i []).getD j []).length + 1)) :=
  pad_stroke_batch_row_shift 2 1
    [split_sketch [⟨1, 2, 1⟩, ⟨3, 4, 1⟩], split_sketch [⟨5, 6, 1⟩]]
    (by with_unfolding_all decide) (by with_unfolding_all decide)
    (by with_unfolding_all decide)

/-- C9: in `pad_stroke_batch`, a row whose `j`-th pen-stroke has length
exactly `max_seq_length` becomes the start token followed by all
`max_seq_length` stroke points: the single padding one-hot written at index
`max_seq_length` is discarded by the one-step right shift, and the recorded
length is `max_seq_length + 1`, the full row. -/
theorem pad_stroke_batch_full_stroke_row (bs maxSeq : ℕ)
    (ss : List (List (List Pt))) (hbs : ss.length = bs) (hne : ss ≠ [])
    (hlen : ∀ sl ∈ ss, ∀ seg ∈ sl, seg.length ≤ maxSeq)
    (i j : ℕ) (hi : i < bs) (hj : j < (ss.getD i []).length)
    (hfull : ((ss.getD i []).getD j []).length = maxSeq) :
    ∃ run, pad_stroke_batch bs maxSeq ss = some run ∧
      j < run.length ∧
      (run.getD j ([], [])).1.getD i [] =
        startTok :: ((ss.getD i []).getD j []).map toP5 ∧
      (run.getD j ([], [])).2.getD i 0 = maxSeq + 1 := by
  have hjk : j < listMax (ss.map List.length) := by
    have hilt : i < ss.length := hbs ▸ hi
    have hgd : ss.getD i [] = ss[i] := by
      rw [List.getD_eq_getElem?_getD, List.getElem?_eq_getElem hilt]
      rfl
    have hmem : (ss.getD i []).length ∈ ss.map List.length := by
      rw [hgd]
      exact List.mem_map_of_mem List.length (List.getElem_mem hilt)
    exact Nat.lt_of_lt_of_le hj (le_listMax hmem)
  obtain ⟨run, hrun, hklen, hrows⟩ :=
    pad_stroke_batch_row_shift bs maxSeq ss hbs hne hlen
  have hjrun : j < run.length := hklen ▸ hjk
  obtain ⟨hrow, hlenrow⟩ := hrows j hjrun i hi
  have hnle : ¬ ((ss.getD i []).length ≤ j) := Nat.not_le_of_lt hj
  refine ⟨run, hrun, hjrun, ?_, ?_⟩
  · rw [hrow, if_neg hnle]
    unfold strokeRowUnshifted
    have hrep : maxSeq + 1 - maxSeq = 1 := by omega
    rw [hfull, hrep, List.replicate_one, List.dropLast_concat]
  · rw [hlenrow, if_neg hnle, hfull]

/-- Witness for `pad_stroke_batch_full_stroke_row`: one sketch whose single
pen-stroke has length exactly `max_seq_length = 1`. -/
theorem pad_stroke_batch_full_stroke_row_witness :
    ∃ run, pad_stroke_batch 1 1 [split_sketch [⟨1, 2, 1⟩]] = some run ∧
      0 < run.length ∧
      (run.getD 0 ([], [])).1.getD 0 [] =
        startTok :: ((([split_sketch [⟨1, 2, 1⟩]]).getD 0 []).getD 0 []).map
          toP5 ∧
      (run.getD 0 ([], [])).2.getD 0 0 = 1 + 1 :=
  pad_stroke_batch_full_stroke_row 1 1 [split_sketch [⟨1, 2, 1⟩]]
    (by with_unfolding_all decide) (by with_unfolding_all decide)
    (by with_unfolding_all decide) 0 0 (by with_unfolding_all decide)
    (by with_unfolding_all decide) (by with_unfolding_all decide)

/-- Exactly one of the three pen-state channels is 1 and the other two 0. -/
def oneHot (q : P5) : Prop :=
  (q.pd = 1 ∧ q.pu = 0 ∧ q.pe = 0) ∨ (q.pd = 0 ∧ q.pu = 1 ∧ q.pe = 0) ∨
    (q.pd = 0 ∧ q.pu = 0 ∧ q.pe = 1)

lemma getD_map_split (cohort : List (List Pt)) (i : ℕ)
    (hi : i < cohort.length) :
    (cohort.map split_sketch).getD i [] = split_sketch cohort[i] := by
  rw [List.getD_eq_getElem?_getD, List.getElem?_map,
    List.getElem?_eq_getElem hi]
  rfl

lemma oneHot_toP5 {p : Pt} (hp : p.pen = 0 ∨ p.pen = 1) : oneHot (toP5 p) := by
  rcases hp with h | h
  · left
    refine ⟨?_, h, rfl⟩
    show 1 - p.pen = 1
    rw [h, sub_zero]
  · right; left
    refine ⟨?_, h, rfl⟩
    show 1 - p.pen = 0
    rw [h, sub_self]

lemma oneHot_padP5 (b : Bool) : oneHot (padP5 b) := by
  cases b
  · right; left
    exact ⟨rfl, rfl, rfl⟩
  · right; right
    exact ⟨rfl, rfl, rfl⟩

/-- C4: for every cohort of valid stroke-3 sketches (pen-lift values in
`{0,1}`, every pen-stroke of length at most `max_seq_length`), every point
of every array produced by `pad_stroke_batch` has exactly one pen-state
channel equal to 1 and the other two 0. -/
theorem pad_stroke_batch_one_hot (bs maxSeq : ℕ) (cohort : List (List Pt))
    (hbs : cohort.length = bs) (hne : cohort ≠ [])
    (hpens : ∀ s ∈ cohort, ∀ p ∈ s, p.pen = 0 ∨ p.pen = 1)
    (hlen : ∀ s ∈ cohort, get_max_stroke_len s ≤ maxSeq) :
    ∀ run, pad_stroke_batch bs maxSeq (cohort.map split_sketch) = some run →
      ∀ mb ∈ run, ∀ row ∈ mb.1, ∀ q ∈ row, oneHot q := by
  intro run hrun
  have hbs' : (cohort.map split_sketch).length = bs := by
    rw [List.length_map]; exact hbs
  have hne' : cohort.map split_sketch ≠ [] := by
    intro h
    exact hne (List.map_eq_nil_iff.mp h)
  have hlen' : ∀ sl ∈ cohort.map split_sketch, ∀ seg ∈ sl,
      seg.length ≤ maxSeq := by
    intro sl hsl seg hseg
    obtain ⟨s, hs, rfl⟩ := List.mem_map.mp hsl
    exact le_trans (seg_len_le_max_stroke_len hseg) (hlen s hs)
  rw [pad_stroke_batch_some bs maxSeq _ hbs' hne' hlen'] at hrun
  obtain rfl := (Option.some_inj.mp hrun).symm
  intro mb hmb row hrow q hq
  obtain ⟨j, -, rfl⟩ := List.mem_map.mp hmb
  obtain ⟨i, hi, rfl⟩ := List.mem_map.mp hrow
  have hibs : i < bs := List.mem_range.mp hi
  have hic : i < cohort.length := hbs ▸ hibs
  rw [getD_map_split cohort i hic] at hq
  unfold rowOf at hq
  by_cases habs : (split_sketch cohort[i]).length ≤ j
  · rw [if_pos habs] at hq
    have := List.eq_of_mem_replicate hq
    subst this
    right; right
    exact ⟨rfl, rfl, rfl⟩
  · rw [if_neg habs] at hq
    rcases List.mem_cons.mp hq with rfl | hq'
    · left
      exact ⟨rfl, rfl, rfl⟩
    · have hq'' := List.dropLast_subset _ hq'
      unfold strokeRowUnshifted at hq''
      rcases List.mem_append.mp hq'' with hmapm | hrep
      · obtain ⟨p, hpmem, rfl⟩ := List.mem_map.mp hmapm
        have hjlt : j < (split_sketch cohort[i]).length := Nat.lt_of_not_le habs
        have hgd : (split_sketch cohort[i]).getD j [] =
            (split_sketch cohort[i])[j] := by
          rw [List.getD_eq_getElem?_getD, List.getElem?_eq_getElem hjlt]
          rfl
        have hsegmem : (split_sketch cohort[i]).getD j [] ∈
            split_sketch cohort[i] := by
          rw [hgd]
          exact List.getElem_mem hjlt
        have hpc : p ∈ cohort[i] := mem_of_mem_split_sketch hsegmem hpmem
        exact oneHot_toP5 (hpens _ (List.getElem_mem hic) p hpc)
      · have := List.eq_of_mem_replicate hrep
        subst this
        exact oneHot_padP5 _

/-- Witness for `pad_stroke_batch_one_hot` on a one-sketch cohort,
instantiated at the concrete run and at the stroke-data point of its only
row. -/
theorem pad_stroke_batch_one_hot_witness : oneHot (⟨1, 2, 0, 1, 0⟩ : P5) :=
  pad_stroke_batch_one_hot 1 1 [[⟨1, 2, 1⟩]] (by with_unfolding_all decide)
    (by with_unfolding_all decide) (by with_unfolding_all decide)
    (by with_unfolding_all decide)
    [([[⟨0, 0, 1, 0, 0⟩, ⟨1, 2, 0, 1, 0⟩]], [2])]
    (by with_unfolding_all decide)
    ([[⟨0, 0, 1, 0, 0⟩, ⟨1, 2, 0, 1, 0⟩]], [2])
    (by with_unfolding_all decide)
    [⟨0, 0, 1, 0, 0⟩, ⟨1, 2, 0, 1, 0⟩] (by with_unfolding_all decide)
    ⟨1, 2, 0, 1, 0⟩ (by with_unfolding_all decide)

/-! ## augment_strokes (stochastic point dropping) -/

/-- `stroke[0] += candidate[0]; stroke[1] += candidate[1]` (utils.py:123-124):
accumulate a dropped candidate's offsets into a point, keeping its pen flag. -/
def addPtOffsets (a c : Pt) : Pt := ⟨a.dx + c.dx, a.dy + c.dy, a.pen⟩

/-- Add a dropped candidate's offsets into the most recently emitted point
(the mutation of `stroke`, which aliases `result[-1]` after any keep). -/
def addLast : List Pt → Pt → List Pt
  | [], _ => []
  | [a], c => [addPtOffsets a c]
  | a :: b :: rest, c => a :: addLast (b :: rest) c

/-- The counter update of the loop (utils.py:117-120): reset on a pen lift
of the candidate or of the last emitted point, else increment. -/
def augCnt (c : Pt) (prevPen : ℚ) (count : ℕ) : ℕ :=
  if c.pen = 1 ∨ prevPen = 1 then 0 else count + 1

/-- The loop of `augment_strokes` (utils.py:115-128): `i` the iteration
index into the stream `us` of uniform draws, `prevPen` the pen flag of
`prev_stroke` (the last emitted point, initially `[0,0,1]`), `count` the
run counter, `acc` the emitted `result`. -/
def augGo (prob : ℚ) (us : ℕ → ℚ) :
    List Pt → ℕ → ℚ → ℕ → List Pt → List Pt
  | [], _, _, _, acc => acc
  | c :: rest, i, prevPen, count, acc =>
    if c.pen = 0 ∧ prevPen = 0 ∧ 2 < augCnt c prevPen count ∧ us i < prob then
      augGo prob us rest (i + 1) prevPen (augCnt c prevPen count)
        (addLast acc c)
    else
      augGo prob us rest (i + 1) c.pen (augCnt c prevPen count) (acc ++ [c])

/-- `augment_strokes(strokes, prob)` (utils.py:107-129), with the stream of
`np.random.rand()` draws passed explicitly. -/
def augment_strokes (prob : ℚ) (us : ℕ → ℚ) (strokes : List Pt) : List Pt :=
  augGo prob us strokes 0 1 0 []

example :
    augment_strokes (1/2) (fun _ => 1/4)
        [⟨1, 0, 0⟩, ⟨2, 0, 0⟩, ⟨3, 0, 0⟩, ⟨4, 0, 0⟩, ⟨5, 0, 1⟩] =
      [⟨1, 0, 0⟩, ⟨2, 0, 0⟩, ⟨3 + 4, 0 + 0, 0⟩, ⟨5, 0, 1⟩] := by
  with_unfolding_all decide

example :
    augment_strokes (1/2) (fun _ => 3/4)
        [⟨1, 0, 0⟩, ⟨2, 0, 0⟩, ⟨3, 0, 0⟩, ⟨4, 0, 0⟩, ⟨5, 0, 1⟩] =
      [⟨1, 0, 0⟩, ⟨2, 0, 0⟩, ⟨3, 0, 0⟩, ⟨4, 0, 0⟩, ⟨5, 0, 1⟩] := by
  with_unfolding_all decide

/-- Collapse of a merge group: offsets are accumulated by summation into
the emitted head point, whose pen flag survives. -/
def collapse (g : List Pt) : Pt :=
  ⟨(g.map Pt.dx).sum, (g.map Pt.dy).sum, (g.headD ⟨0, 0, 0⟩).pen⟩

/-- Pen flag of a group's head (the emitted point of the group). -/
def headPen (g : List Pt) : ℚ := (g.headD ⟨0, 0, 0⟩).pen

/-- Pen flag of the last emitted point: `prev_stroke[2]`, `1` before any
point is emitted. -/
def lastHeadPen (groups : List (List Pt)) : ℚ :=
  match groups.getLast? with
  | none => 1
  | some g => headPen g

/-- Adjacency constraint: the group right after a group headed by a
pen-lift point is a singleton (the first point after a pen lift is always
emitted alone). -/
def RSing (g₁ g₂ : List Pt) : Prop := headPen g₁ = 1 → g₂.length = 1

lemma addLast_concat (xs : List Pt) (y c : Pt) :
    addLast (xs ++ [y]) c = xs ++ [addPtOffsets y c] := by
  induction xs with
  | nil => rfl
  | cons a t ih =>
    cases t with
    | nil => rfl
    | cons b r =>
      show a :: addLast ((b :: r) ++ [y]) c = a :: ((b :: r) ++ [addPtOffsets y c])
      rw [ih]

lemma collapse_singleton (p : Pt) : collapse [p] = p := by
  simp [collapse]

lemma collapse_append_singleton {g : List Pt} (hg : g ≠ []) (c : Pt) :
    collapse (g ++ [c]) = addPtOffsets (collapse g) c := by
  obtain ⟨a, t, rfl⟩ := List.exists_cons_of_ne_nil hg
  simp [collapse, addPtOffsets, List.map_append, List.sum_append]
  exact ⟨by ring, by ring⟩

lemma headPen_append_singleton {g : List Pt} (hg : g ≠ []) (c : Pt) :
    headPen (g ++ [c]) = headPen g := by
  obtain ⟨a, t, rfl⟩ := List.exists_cons_of_ne_nil hg
  rfl

lemma tail_append_singleton {g : List Pt} (hg : g ≠ []) (c : Pt) :
    (g ++ [c]).tail = g.tail ++ [c] := by
  obtain ⟨a, t, rfl⟩ := List.exists_cons_of_ne_nil hg
  rfl

lemma lastHeadPen_concat (init : List (List Pt)) (g : List Pt) :
    lastHeadPen (init ++ [g]) = headPen g := by
  unfold lastHeadPen
  rw [List.getLast?_concat]

/-- Invariant of the `augment_strokes` loop relating the mutable state to a
grouping of the already-consumed input: each group is one emitted point
followed by the dropped points merged into it; `acc` is the collapse of
the groups, `prevPen` the pen flag of the last emitted point, and when
`count ≥ 2` the last two groups have non-lift heads, so a drop never
extends the first group of the output nor the successor of a pen-lift
group. -/
structure AugInv (groups : List (List Pt)) (prevPen : ℚ) (count : ℕ)
    (acc : List Pt) : Prop where
  hacc : acc = groups.map collapse
  hne : ∀ g ∈ groups, g ≠ []
  htail : ∀ g ∈ groups, ∀ p ∈ g.tail, p.pen = 0
  hmerge : ∀ g ∈ groups, g.tail ≠ [] → headPen g = 0
  hchain : List.Chain' RSing groups
  hprev : prevPen = lastHeadPen groups
  hprev01 : prevPen = 0 ∨ prevPen = 1
  hcnt : 2 ≤ count → prevPen = 0 →
    ∃ init ga gb, groups = init ++ [ga, gb] ∧ headPen ga = 0
  hfirst : ∀ g0 gs, groups = g0 :: gs → ∃ p, g0 = [p]

lemma augGo_spec (prob : ℚ) (us : ℕ → ℚ) :
    ∀ (rest : List Pt) (i : ℕ) (prevPen : ℚ) (count : ℕ) (acc : List Pt)
      (groups : List (List Pt)),
      (∀ p ∈ rest, p.pen = 0 ∨ p.pen = 1) →
      AugInv groups prevPen count acc →
      ∃ groups' : List (List Pt),
        groups'.join = groups.join ++ rest ∧
        augGo prob us rest i prevPen count acc = groups'.map collapse ∧
        (∀ g ∈ groups', g ≠ []) ∧
        (∀ g ∈ groups', ∀ p ∈ g.tail, p.pen = 0) ∧
        (∀ g ∈ groups', g.tail ≠ [] → headPen g = 0) ∧
        List.Chain' RSing groups' ∧
        (∀ g0 gs, groups' = g0 :: gs → ∃ p, g0 = [p]) := by
  intro rest
  induction rest with
  | nil =>
    intro i prevPen count acc groups hpens inv
    exact ⟨groups, by simp, inv.hacc, inv.hne, inv.htail, inv.hmerge,
      inv.hchain, inv.hfirst⟩
  | cons c rest ih =>
    intro i prevPen count acc groups hpens inv
    have hc : c.pen = 0 ∨ c.pen = 1 := hpens c (List.mem_cons_self c rest)
    have hpens' : ∀ p ∈ rest, p.pen = 0 ∨ p.pen = 1 :=
      fun p hp => hpens p (List.mem_cons_of_mem c hp)
    have hstep : augGo prob us (c :: rest) i prevPen count acc =
        (if c.pen = 0 ∧ prevPen = 0 ∧ 2 < augCnt c prevPen count ∧
            us i < prob then
          augGo prob us rest (i + 1) prevPen (augCnt c prevPen count)
            (addLast acc c)
        else
          augGo prob us rest (i + 1) c.pen (augCnt c prevPen count)
            (acc ++ [c])) := rfl
    by_cases hdrop : c.pen = 0 ∧ prevPen = 0 ∧ 2 < augCnt c prevPen count ∧
        us i < prob
    · -- the candidate is dropped and merged into the last emitted point
      obtain ⟨hc0, hp0, hcnt2, hud⟩ := hdrop
      have hnores : ¬ (c.pen = 1 ∨ prevPen = 1) := by
        rintro (h | h)
        · rw [hc0] at h; norm_num at h
        · rw [hp0] at h; norm_num at h
      have hcval : augCnt c prevPen count = count + 1 := if_neg hnores
      have hcount2 : 2 ≤ count := by
        rw [hcval] at hcnt2; omega
      obtain ⟨init, ga, gb, hgroups, hga⟩ := inv.hcnt hcount2 hp0
      have hgroups' : groups = (init ++ [ga]) ++ [gb] := by
        rw [hgroups]; simp
      have hgbmem : gb ∈ groups := by rw [hgroups']; simp
      have hgamem : ga ∈ groups := by rw [hgroups']; simp
      have hgbne : gb ≠ [] := inv.hne gb hgbmem
      have hlastpen : headPen gb = 0 := by
        have hpl := inv.hprev
        rw [hgroups', lastHeadPen_concat] at hpl
        rw [← hpl]; exact hp0
      have hinv2 : AugInv ((init ++ [ga]) ++ [gb ++ [c]]) prevPen (count + 1)
          (addLast acc c) := by
        refine ⟨?_, ?_, ?_, ?_, ?_, ?_, ?_, ?_, ?_⟩
        · rw [inv.hacc, hgroups', List.map_append, List.map_append,
            List.map_singleton, List.map_singleton, addLast_concat,
            List.map_append, List.map_append, List.map_singleton,
            List.map_singleton, collapse_append_singleton hgbne]
        · intro g hg
          rcases List.mem_append.mp hg with hg1 | hg2
          · exact inv.hne g (by rw [hgroups']; exact List.mem_append_left _ hg1)
          · rw [List.mem_singleton.mp hg2]
            simp
        · intro g hg p hp
          rcases List.mem_append.mp hg with hg1 | hg2
          · exact inv.htail g
              (by rw [hgroups']; exact List.mem_append_left _ hg1) p hp
          · rw [List.mem_singleton.mp hg2, tail_append_singleton hgbne] at hp
            rcases List.mem_append.mp hp with hp1 | hp2
            · exact inv.htail gb hgbmem p hp1
            · rw [List.mem_singleton.mp hp2]; exact hc0
        · intro g hg htl
          rcases List.mem_append.mp hg with hg1 | hg2
          · exact inv.hmerge g
              (by rw [hgroups']; exact List.mem_append_left _ hg1) htl
          · rw [List.mem_singleton.mp hg2, headPen_append_singleton hgbne]
            exact hlastpen
        · have hold := inv.hchain
          rw [hgroups', List.chain'_append] at hold
          obtain ⟨h1, -, -⟩ := hold
          rw [List.chain'_append]
          refine ⟨h1, List.chain'_singleton _, ?_⟩
          intro x hx y hy
          rw [List.getLast?_concat] at hx
          simp only [List.head?_cons, Option.mem_def, Option.some.injEq] at hx hy
          subst hx; subst hy
          intro hpen1
          rw [hga] at hpen1
          norm_num at hpen1
        · rw [lastHeadPen_concat, headPen_append_singleton hgbne, hp0,
            hlastpen]
        · exact inv.hprev01
        · intro h2 hpp
          exact ⟨init, ga, gb ++ [c], by simp, hga⟩
        · intro g0 gs heq
          cases init with
          | nil =>
            simp only [List.nil_append, List.cons_append, List.nil_append] at heq
            obtain ⟨rfl, -⟩ := List.cons.injEq .. |>.mp heq
            exact inv.hfirst ga [gb] (by rw [hgroups]; rfl)
          | cons x xs =>
            simp only [List.cons_append] at heq
            obtain ⟨rfl, -⟩ := List.cons.injEq .. |>.mp heq
            refine inv.hfirst x (xs ++ [ga, gb]) ?_
            rw [hgroups]; rfl
      obtain ⟨groups', hjoin, hout, hne', htail', hmerge', hchain', hfirst'⟩ :=
        ih (i + 1) prevPen (count + 1) (addLast acc c)
          ((init ++ [ga]) ++ [gb ++ [c]]) hpens' hinv2
      refine ⟨groups', ?_, ?_, hne', htail', hmerge', hchain', hfirst'⟩
      · rw [hjoin, hgroups']
        simp [List.join_append]
      · rw [hstep, if_pos ⟨hc0, hp0, hcnt2, hud⟩, hcval]
        exact hout
    · -- the candidate is kept: a new singleton group is emitted
      have hinv2 : AugInv (groups ++ [[c]]) c.pen (augCnt c prevPen count)
          (acc ++ [c]) := by
        refine ⟨?_, ?_, ?_, ?_, ?_, ?_, ?_, ?_, ?_⟩
        · rw [inv.hacc, List.map_append, List.map_singleton,
            collapse_singleton]
        · intro g hg
          rcases List.mem_append.mp hg with hg1 | hg2
          · exact inv.hne g hg1
          · rw [List.mem_singleton.mp hg2]
            simp
        · intro g hg p hp
          rcases List.mem_append.mp hg with hg1 | hg2
          · exact inv.htail g hg1 p hp
          · rw [List.mem_singleton.mp hg2] at hp
            simp at hp
        · intro g hg htl
          rcases List.mem_append.mp hg with hg1 | hg2
          · exact inv.hmerge g hg1 htl
          · rw [List.mem_singleton.mp hg2] at htl
            simp at htl
        · rw [List.chain'_append]
          refine ⟨inv.hchain, List.chain'_singleton _, ?_⟩
          intro x hx y hy
          simp only [List.head?_cons, Option.mem_def, Option.some.injEq] at hy
          subst hy
          intro hpen1
          rfl
        · rw [lastHeadPen_concat]
          rfl
        · exact hc
        · intro h2 hcp0
          have hnores : ¬ (c.pen = 1 ∨ prevPen = 1) := by
            intro hres
            have : augCnt c prevPen count = 0 := if_pos hres
            omega
          have hcval : augCnt c prevPen count = count + 1 := if_neg hnores
          have hpne1 : prevPen ≠ 1 := fun h => hnores (Or.inr h)
          have hp0 : prevPen = 0 := inv.hprev01.resolve_right hpne1
          have hlp : lastHeadPen groups = 0 := by rw [← inv.hprev]; exact hp0
          have hgne : groups ≠ [] := by
            intro h
            rw [h] at hlp
            unfold lastHeadPen at hlp
            norm_num at hlp
          have hrep : groups.dropLast ++ [groups.getLast hgne] = groups :=
            List.dropLast_append_getLast hgne
          have hglpen : headPen (groups.getLast hgne) = 0 := by
            rw [← hrep, lastHeadPen_concat] at hlp
            exact hlp
          refine ⟨groups.dropLast, groups.getLast hgne, [c], ?_, hglpen⟩
          have hsplit : groups.dropLast ++ [groups.getLast hgne, [c]] =
              (groups.dropLast ++ [groups.getLast hgne]) ++ [[c]] := by
            simp
          rw [hsplit, hrep]
        · intro g0 gs heq
          cases groups with
          | nil =>
            simp only [List.nil_append] at heq
            obtain ⟨rfl, -⟩ := List.cons.injEq .. |>.mp heq
            exact ⟨c, rfl⟩
          | cons g t =>
            simp only [List.cons_append] at heq
            obtain ⟨rfl, -⟩ := List.cons.injEq .. |>.mp heq
            exact inv.hfirst g t rfl
      obtain ⟨groups', hjoin, hout, hne', htail', hmerge', hchain', hfirst'⟩ :=
        ih (i + 1) c.pen (augCnt c prevPen count) (acc ++ [c])
          (groups ++ [[c]]) hpens' hinv2
      refine ⟨groups', ?_, ?_, hne', htail', hmerge', hchain', hfirst'⟩
      · rw [hjoin]
        simp [List.join_append]
      · rw [hstep, if_neg hdrop]
        exact hout

/-- C7: for every stroke-3 sequence (pen flags in `{0,1}`), every `prob`
and every realization of the uniform draws, the output of
`augment_strokes` is obtained by partitioning the input into consecutive
groups and collapsing each group by summing offsets: each group is one
emitted point (its head) followed by the dropped points merged into it, so
each dropped point's `(dx, dy)` is accumulated by summation into the most
recently emitted point; no dropped point is a pen-lift and no group with a
merged tail is headed by a pen-lift (no merge ever crosses a pen-lift
boundary); every pen-lift point — the last point of each pen-stroke — is
its own singleton group (retained verbatim), the group following a
pen-lift group is a singleton (the first point of each pen-stroke is
retained verbatim), and the very first input point is a singleton group. -/
theorem augment_strokes_structure (prob : ℚ) (us : ℕ → ℚ) (s : List Pt)
    (hpens : ∀ p ∈ s, p.pen = 0 ∨ p.pen = 1) :
    ∃ groups : List (List Pt),
      groups.join = s ∧
      augment_strokes prob us s = groups.map collapse ∧
      (∀ g ∈ groups, g ≠ []) ∧
      (∀ g ∈ groups, ∀ p ∈ g.tail, p.pen = 0) ∧
      (∀ g ∈ groups, g.tail ≠ [] → headPen g = 0) ∧
      (∀ g ∈ groups, headPen g = 1 → g = [g.headD ⟨0, 0, 0⟩]) ∧
      List.Chain' RSing groups ∧
      (∀ p0 t, s = p0 :: t → groups.headD [] = [p0]) := by
  have inv0 : AugInv [] 1 0 [] := by
    refine ⟨rfl, ?_, ?_, ?_, List.chain'_nil, rfl, Or.inr rfl, ?_, ?_⟩
    · intro g hg; cases hg
    · intro g hg; cases hg
    · intro g hg; cases hg
    · intro h2; omega
    · intro g0 gs h; cases h
  obtain ⟨groups, hjoin, hout, hne, htail, hmerge, hchain, hfirst⟩ :=
    augGo_spec prob us s 0 1 0 [] [] hpens inv0
  simp only [List.join_nil, List.nil_append] at hjoin
  refine ⟨groups, hjoin, hout, hne, htail, hmerge, ?_, hchain, ?_⟩
  · intro g hg hpen1
    obtain ⟨a, t, rfl⟩ := List.exists_cons_of_ne_nil (hne g hg)
    cases t with
    | nil => rfl
    | cons b r =>
      have := hmerge _ hg (by simp)
      rw [this] at hpen1
      norm_num at hpen1
  · intro p0 t hs
    cases groups with
    | nil =>
      rw [hs] at hjoin
      cases hjoin
    | cons g0 gs =>
      obtain ⟨p, rfl⟩ := hfirst g0 gs rfl
      rw [hs] at hjoin
      have : p :: gs.join = p0 :: t := by
        simpa using hjoin
      obtain ⟨rfl, -⟩ := List.cons.injEq .. |>.mp this
      rfl

/-- Witness for `augment_strokes_structure` at a concrete two-point
sketch, probability 1/2 and constant draw stream 1/4. -/
theorem augment_strokes_structure_witness :
    ∃ groups : List (List Pt),
      groups.join = [⟨1, 0, 0⟩, ⟨2, 0, 1⟩] ∧
      augment_strokes (1/2) (fun _ => 1/4) [⟨1, 0, 0⟩, ⟨2, 0, 1⟩] =
        groups.map collapse ∧
      (∀ g ∈ groups, g ≠ []) ∧
      (∀ g ∈ groups, ∀ p ∈ g.tail, p.pen = 0) ∧
      (∀ g ∈ groups, g.tail ≠ [] → headPen g = 0) ∧
      (∀ g ∈ groups, headPen g = 1 → g = [g.headD ⟨0, 0, 0⟩]) ∧
      List.Chain' RSing groups ∧
      (∀ p0 t, ([⟨1, 0, 0⟩, ⟨2, 0, 1⟩] : List Pt) = p0 :: t →
        groups.headD [] = [p0]) :=
  augment_strokes_structure (1/2) (fun _ => 1/4) [⟨1, 0, 0⟩, ⟨2, 0, 1⟩]
    (by with_unfolding_all decide)

/-! ## slerp (spherical interpolation, collinear edge case) -/

/-- Euclidean norm of a 2-vector (`np.linalg.norm`).  The slerp trio is
the one part of the code that lives in transcendental real arithmetic, so
these three definitions are not executable. -/
noncomputable def vnorm (p : ℝ × ℝ) : ℝ := Real.sqrt (p.1 ^ 2 + p.2 ^ 2)

/-- `omega = arccos(dot(p0/|p0|, p1/|p1|))` (utils.py:51). -/
noncomputable def slerpOmega (p0 p1 : ℝ × ℝ) : ℝ :=
  Real.arccos ((p0.1 / vnorm p0) * (p1.1 / vnorm p1) +
    (p0.2 / vnorm p0) * (p1.2 / vnorm p1))

/-- `slerp(p0, p1, t)` (utils.py:49-53): the function is total — it has no
error path; the division by `so = sin(omega)` is carried out whatever the
value of `so` (in the numpy code `0/0` silently yields NaN; over `ℝ` the
Lean convention `x / 0 = 0` applies — either way no exception is raised). -/
noncomputable def slerp (p0 p1 : ℝ × ℝ) (t : ℝ) : ℝ × ℝ :=
  let om := slerpOmega p0 p1
  let so := Real.sin om
  (Real.sin ((1 - t) * om) / so * p0.1 + Real.sin (t * om) / so * p1.1,
    Real.sin ((1 - t) * om) / so * p0.2 + Real.sin (t * om) / so * p1.2)

/-- C8 evaluation at the failing input: for the collinear pair
`p0 = p1 = (1, 0)` the angle `omega` is `0`, the divisor `so = sin(omega)`
is `0`, and `slerp` still returns a value (the junk `(0, 0)`, the image of
numpy's silently produced NaN) instead of raising a domain error: `slerp`
has no error path at all, contradicting the claim that a clear domain
error is raised for collinear inputs. -/
theorem slerp_collinear_no_error :
    slerpOmega (1, 0) (1, 0) = 0 ∧
      Real.sin (slerpOmega (1, 0) (1, 0)) = 0 ∧
      slerp (1, 0) (1, 0) (1 / 2) = (0, 0) := by
  have hnorm : vnorm ((1 : ℝ), (0 : ℝ)) = 1 := by
    unfold vnorm
    norm_num
  have homega : slerpOmega (1, 0) (1, 0) = 0 := by
    unfold slerpOmega
    rw [hnorm]
    norm_num [Real.arccos_one]
  refine ⟨homega, ?_, ?_⟩
  · rw [homega, Real.sin_zero]
  · unfold slerp
    rw [homega]
    norm_num

/-! ## random_stroke_batch and the stroke-batch queue -/

/-- `random_scale(data)` (utils.py:274-283) with the two drawn stretch
factors passed explicitly: multiply the x column by one and the y column
by the other; the pen column is untouched. -/
def random_scale (xf yf : ℚ) (s : List Pt) : List Pt :=
  s.map (fun p => ⟨p.dx * xf, p.dy * yf, p.pen⟩)

/-- The loop of `_get_sketches_from_indices` (utils.py:328-343): for the
`pos`-th index `i`, scale `self.strokes[i]` (IndexError — `none` — when
out of range) and augment it when `augment_stroke_prob > 0`.  The
`num_strokes` list it also returns is unused by `random_stroke_batch` and
is omitted. -/
def getSketchesGo (aug_prob : ℚ) (factors : ℕ → ℚ × ℚ) (uss : ℕ → ℕ → ℚ)
    (strokes : List (List Pt)) : ℕ → List ℕ → Option (List (List Pt))
  | _, [] => some []
  | pos, i :: rest =>
    match strokes[i]? with
    | none => none
    | some s =>
      let d := random_scale (factors pos).1 (factors pos).2 s
      let d2 :=
        if 0 < aug_prob then augment_strokes aug_prob (uss pos) d else d
      match getSketchesGo aug_prob factors uss strokes (pos + 1) rest with
      | none => none
      | some l => some (d2 :: l)

/-- `_get_sketches_from_indices(indices)` (utils.py:328-343). -/
def get_sketches_from_indices (aug_prob : ℚ) (factors : ℕ → ℚ × ℚ)
    (uss : ℕ → ℕ → ℚ) (strokes : List (List Pt)) (indices : List ℕ) :
    Option (List (List Pt)) :=
  getSketchesGo aug_prob factors uss strokes 0 indices

/-- The random draws consumed by one `random_stroke_batch` call when it
refills the queue: the `np.random.permutation` of the corpus indices, the
per-sketch `random_scale` factor pairs and the per-sketch streams of
`augment_strokes` draws. -/
structure CallDraws where
  perm : List ℕ
  factors : ℕ → ℚ × ℚ
  uss : ℕ → ℕ → ℚ

/-- One `random_stroke_batch()` call (utils.py:400-414) acting on the
queue state: if the queue is empty, sample the cohort
(`idx = permutation[0:batch_size]`), split it, build the run with
`pad_stroke_batch` and enqueue it; then dequeue and return one mini-batch
(`Queue.get` on a still-empty queue raises — `none`). -/
def random_stroke_batch_step (bs maxSeq : ℕ) (aug_prob : ℚ)
    (strokes : List (List Pt)) (d : CallDraws)
    (queue : List (List (List P5) × List ℕ)) :
    Option ((List (List P5) × List ℕ) × List (List (List P5) × List ℕ)) :=
  match queue with
  | b :: rest => some (b, rest)
  | [] =>
    match get_sketches_from_indices aug_prob d.factors d.uss strokes
        (d.perm.take bs) with
    | none => none
    | some cohort =>
      match pad_stroke_batch bs maxSeq (cohort.map split_sketch) with
      | none => none
      | some run =>
        match run with
        | [] => none
        | b :: rest => some (b, rest)

/-- `n` successive `random_stroke_batch()` calls starting from an empty
queue, threading the queue state; returns the dequeued mini-batches in
call order and the final queue. -/
def runCalls (bs maxSeq : ℕ) (aug_prob : ℚ) (strokes : List (List Pt))
    (draws : ℕ → CallDraws) :
    ℕ → Option (List (List (List P5) × List ℕ) ×
      List (List (List P5) × List ℕ))
  | 0 => some ([], [])
  | n + 1 =>
    match runCalls bs maxSeq aug_prob strokes draws n with
    | none => none
    | some (outs, q) =>
      match random_stroke_batch_step bs maxSeq aug_prob strokes (draws n)
          q with
      | none => none
      | some (b, q') => some (outs ++ [b], q')

lemma getSketchesGo_length (aug_prob : ℚ) (factors : ℕ → ℚ × ℚ)
    (uss : ℕ → ℕ → ℚ) (strokes : List (List Pt)) :
    ∀ (indices : List ℕ) (pos : ℕ) (l : List (List Pt)),
      getSketchesGo aug_prob factors uss strokes pos indices = some l →
      l.length = indices.length := by
  intro indices
  induction indices with
  | nil =>
    intro pos l h
    cases h
    rfl
  | cons i rest ih =>
    intro pos l h
    unfold getSketchesGo at h
    cases hs : strokes[i]? with
    | none => rw [hs] at h; cases h
    | some s =>
      rw [hs] at h
      cases hr : getSketchesGo aug_prob factors uss strokes (pos + 1)
          rest with
      | none => simp only [hr] at h; cases h
      | some l' =>
        simp only [hr] at h
        cases h
        simp [ih (pos + 1) l' hr]

/-- C1 counterexample: a DataLoader whose preprocessed corpus is non-empty
but smaller than `batch_size` (one sketch, `batch_size = 2`).  The first
`random_stroke_batch` call does not return a mini-batch: the permutation
has only one index, the cohort has one sketch, and `pad_stroke_batch`
raises an IndexError (modelled `none`) when its row loop reaches
`sketch_strokes[1]`. -/
theorem random_stroke_batch_crashes_small_corpus :
    runCalls 2 5 0 [[⟨1, 0, 1⟩]]
      (fun _ => ⟨[0], fun _ => (1, 1), fun _ _ => 0⟩) 1 = none := by
  with_unfolding_all rfl

lemma random_stroke_batch_step_cons (bs maxSeq : ℕ) (aug_prob : ℚ)
    (strokes : List (List Pt)) (d : CallDraws)
    (b : List (List P5) × List ℕ) (rest : List (List (List P5) × List ℕ)) :
    random_stroke_batch_step bs maxSeq aug_prob strokes d (b :: rest) =
      some (b, rest) := rfl

lemma random_stroke_batch_step_empty (bs maxSeq : ℕ) (aug_prob : ℚ)
    (strokes : List (List Pt)) (d : CallDraws) (cohort : List (List Pt))
    (b : List (List P5) × List ℕ) (rest : List (List (List P5) × List ℕ))
    (hc : get_sketches_from_indices aug_prob d.factors d.uss strokes
      (d.perm.take bs) = some cohort)
    (hp : pad_stroke_batch bs maxSeq (cohort.map split_sketch) =
      some (b :: rest)) :
    random_stroke_batch_step bs maxSeq aug_prob strokes d [] =
      some (b, rest) := by
  show (match get_sketches_from_indices aug_prob d.factors d.uss strokes
      (d.perm.take bs) with
    | none => none
    | some cohort =>
      match pad_stroke_batch bs maxSeq (cohort.map split_sketch) with
      | none => none
      | some run =>
        match run with
        | [] => none
        | b :: rest => some (b, rest)) = some (b, rest)
  rw [hc]
  show (match pad_stroke_batch bs maxSeq (cohort.map split_sketch) with
    | none => none
    | some run =>
      match run with
      | [] => none
      | b :: rest => some (b, rest)) = some (b, rest)
  rw [hp]

lemma runCalls_succ (bs maxSeq : ℕ) (aug_prob : ℚ)
    (strokes : List (List Pt)) (draws : ℕ → CallDraws) (n : ℕ) :
    runCalls bs maxSeq aug_prob strokes draws (n + 1) =
      match runCalls bs maxSeq aug_prob strokes draws n with
      | none => none
      | some (outs, q) =>
        match random_stroke_batch_step bs maxSeq aug_prob strokes (draws n)
            q with
        | none => none
        | some (b, q') => some (outs ++ [b], q') := rfl

/-- C1 (amended): for a DataLoader whose preprocessed corpus has at least
`batch_size` sketches (and `batch_size > 0`), when the stroke-batch queue
is empty, `random_stroke_batch` samples a cohort of exactly `batch_size`
sketches, builds a run of exactly `k` mini-batches — `k` the maximum
pen-stroke count among the cohort — enqueues it and returns mini-batch 0;
the following calls dequeue mini-batches `1, …, k-1` of that same run in
generation order without regenerating (the statement holds for every
draw function, and the run depends only on call 0's draws), and after the
`k`-th call the queue is empty again. -/
theorem random_stroke_batch_run (bs maxSeq : ℕ) (aug_prob : ℚ)
    (strokes : List (List Pt)) (draws : ℕ → CallDraws)
    (cohort : List (List Pt)) (hbs : 0 < bs) (hn : bs ≤ strokes.length)
    (hperm : (draws 0).perm.Perm (List.range strokes.length))
    (hc : get_sketches_from_indices aug_prob (draws 0).factors
      (draws 0).uss strokes ((draws 0).perm.take bs) = some cohort)
    (hlen : ∀ s ∈ cohort, get_max_stroke_len s ≤ maxSeq) :
    cohort.length = bs ∧
    ∃ run, pad_stroke_batch bs maxSeq (cohort.map split_sketch) =
        some run ∧
      run.length = listMax ((cohort.map split_sketch).map List.length) ∧
      0 < run.length ∧
      ∀ j, 0 < j → j ≤ run.length →
        runCalls bs maxSeq aug_prob strokes draws j =
          some (run.take j, run.drop j) := by
  have hclen : cohort.length = bs := by
    have hl := getSketchesGo_length aug_prob (draws 0).factors (draws 0).uss
      strokes ((draws 0).perm.take bs) 0 cohort hc
    rw [hl, List.length_take, hperm.length_eq, List.length_range]
    omega
  have hcne : cohort ≠ [] := by
    intro h
    rw [h] at hclen
    simp at hclen
    omega
  have hss_len : (cohort.map split_sketch).length = bs := by
    rw [List.length_map]; exact hclen
  have hssne : cohort.map split_sketch ≠ [] := by
    intro h
    exact hcne (List.map_eq_nil_iff.mp h)
  have hlen' : ∀ sl ∈ cohort.map split_sketch, ∀ seg ∈ sl,
      seg.length ≤ maxSeq := by
    intro sl hsl seg hseg
    obtain ⟨s, hs, rfl⟩ := List.mem_map.mp hsl
    exact le_trans (seg_len_le_max_stroke_len hseg) (hlen s hs)
  have hsome := pad_stroke_batch_some bs maxSeq (cohort.map split_sketch)
    hss_len hssne hlen'
  set k := listMax ((cohort.map split_sketch).map List.length) with hk
  set run := (List.range k).map (fun j =>
    ((List.range bs).map
      (fun i => rowOf maxSeq ((cohort.map split_sketch).getD i []) j),
      (List.range bs).map
        (fun i => lenOf ((cohort.map split_sketch).getD i []) j))) with hrun
  have hrunlen : run.length = k := by
    rw [hrun, List.length_map, List.length_range]
  have hkpos : 0 < k := by
    obtain ⟨s₀, t, rfl⟩ := List.exists_cons_of_ne_nil hcne
    have hmem : (split_sketch s₀).length ∈
        ((s₀ :: t).map split_sketch).map List.length := by
      simp
    have h1 : 1 ≤ (split_sketch s₀).length :=
      List.length_pos.mpr (split_sketch_ne_nil s₀)
    exact Nat.lt_of_lt_of_le h1 (le_listMax hmem)
  refine ⟨hclen, run, hsome, hrunlen, hrunlen ▸ hkpos, ?_⟩
  intro j hj0 hjle
  induction j with
  | zero => omega
  | succ j ihj =>
    cases Nat.eq_zero_or_pos j with
    | inl hz =>
      subst hz
      obtain ⟨b, rest, hbr⟩ := List.exists_cons_of_ne_nil
        (show run ≠ [] from List.length_pos.mp (hrunlen ▸ hkpos))
      rw [runCalls_succ]
      have h0 : runCalls bs maxSeq aug_prob strokes draws 0 =
          some ([], []) := rfl
      rw [h0]
      show (match random_stroke_batch_step bs maxSeq aug_prob strokes
          (draws 0) [] with
        | none => none
        | some (b, q') => some (([] : List (List (List P5) × List ℕ)) ++ [b],
            q')) = some (run.take 1, run.drop 1)
      rw [random_stroke_batch_step_empty bs maxSeq aug_prob strokes
        (draws 0) cohort b rest hc (hbr ▸ hsome)]
      rw [hbr]
      rfl
    | inr hpos =>
      have hj' := ihj hpos (Nat.le_of_succ_le hjle)
      have hjlt : j < run.length := Nat.lt_of_succ_le hjle
      rw [runCalls_succ, hj']
      show (match random_stroke_batch_step bs maxSeq aug_prob strokes
          (draws j) (run.drop j) with
        | none => none
        | some (b, q') => some (run.take j ++ [b], q')) =
          some (run.take (j + 1), run.drop (j + 1))
      rw [List.drop_eq_getElem_cons hjlt,
        random_stroke_batch_step_cons]
      have htake : run.take j ++ [run[j]] = run.take (j + 1) := by
        rw [← List.concat_eq_append, List.take_concat_get]
      show some (run.take j ++ [run[j]], run.drop (j + 1)) =
        some (run.take (j + 1), run.drop (j + 1))
      rw [htake]

/-- Witness for `random_stroke_batch_run`: corpus of one one-point sketch,
`batch_size = 1`, no augmentation, identity scale factors. -/
theorem random_stroke_batch_run_witness :
    ([[(⟨1, 0, 1⟩ : Pt)]] : List (List Pt)).length = 1 ∧
    ∃ run, pad_stroke_batch 1 1
        (([[(⟨1, 0, 1⟩ : Pt)]] : List (List Pt)).map split_sketch) =
        some run ∧
      run.length = listMax
        ((([[(⟨1, 0, 1⟩ : Pt)]] : List (List Pt)).map split_sketch).map
          List.length) ∧
      0 < run.length ∧
      ∀ j, 0 < j → j ≤ run.length →
        runCalls 1 1 0 [[⟨1, 0, 1⟩]]
            (fun _ => ⟨[0], fun _ => (1, 1), fun _ _ => 0⟩) j =
          some (run.take j, run.drop j) :=
  random_stroke_batch_run 1 1 0 [[⟨1, 0, 1⟩]]
    (fun _ => ⟨[0], fun _ => (1, 1), fun _ _ => 0⟩) [[⟨1, 0, 1⟩]]
    (by decide) (by with_unfolding_all decide) (by with_unfolding_all decide)
    (by with_unfolding_all decide) (by with_unfolding_all decide)
